import Mathlib

/-
Verification of the dispatch/matching core of `src/dispatch_demo.py`.

The core is embedded shallowly:
- `Agent`, `Task`, `Decision` mirror the record shapes used by the script
  (skills are a Python set of strings; we model them as the list of parsed
  skill tokens, used only through membership, matching set semantics).
- `eligible_agents`, `pick_by_queue`, `round_robin_pick`, `parse_skills`
  and `load_agents` are direct translations of the functions of the same
  names.
- The two passes of `main` (confirmed pass with availability mutation,
  planned pass with a shared round-robin cursor) are embedded as
  `confirmedPass` and `plannedPass`, with the in-place mutation
  `chosen.is_available = False` made explicit: the chosen agent is the
  first roster element satisfying the eligibility predicate, and
  `markFirstEligible` flips exactly that element's flag.
- `runFull` is the whole core of `main`: it partitions the tasks, runs
  both passes and returns (final roster, final cursor, decision list).
-/

namespace Dispatch

/-- Agent record, as built by `load_agents`: the Python `skills` set is
modelled as the list of parsed skill tokens (only membership is used). -/
structure Agent where
  agent_id : String
  skills : List String
  zone : String
  is_available : Bool
  queue_rank : Int
deriving DecidableEq

/-- Task record, as read from `tasks.csv` by `main`. -/
structure Task where
  task_id : String
  task_type : String
  required_skill : String
  zone : String
  is_confirmed : Bool
deriving DecidableEq

/-- One output row appended to `results` by `main`. -/
structure Decision where
  task_id : String
  task_type : String
  required_skill : String
  zone : String
  assigned_agent : String
  decision_reason : String
deriving DecidableEq

/-- The eligibility predicate of `eligible_agents` (line 51):
`a.is_available and required_skill in a.skills and a.zone == zone`. -/
def eligibleP (required_skill zone : String) (a : Agent) : Bool :=
  a.is_available && a.skills.contains required_skill && a.zone == zone

/-- `eligible_agents` (lines 50-51): list comprehension filtering the roster. -/
def eligible_agents (agents : List Agent) (required_skill zone : String) : List Agent :=
  agents.filter (eligibleP required_skill zone)

/-- `pick_by_queue` (lines 54-55): `candidates[0] if candidates else None`. -/
def pick_by_queue (candidates : List Agent) : Option Agent :=
  candidates.head?

/-- `round_robin_pick` (lines 58-61): `candidates[rr_index % len(candidates)]`
if candidates is non-empty, else `None`.  Python `%` with a positive modulus
agrees with Lean's `Int` `%` (both Euclidean on a positive divisor). -/
def round_robin_pick (candidates : List Agent) (rr_index : Int) : Option Agent :=
  if candidates.isEmpty then none
  else candidates.get? (rr_index % (candidates.length : Int)).toNat

/-- The fixed unmatched reason string (lines 94 and 128). -/
def noMatchReason : String := "no eligible agent available in same zone"

/-- The fixed confirmed-assignment reason string (line 107). -/
def confirmedReason : String := "confirmed task assigned by top-of-queue (fairness)"

/-- The fixed planned-assignment reason string (line 140). -/
def plannedReason : String := "planned task assigned by round-robin (fair distribution)"

/-- The output row `main` appends to `results` for task `t`. -/
def mkDecision (t : Task) (agent reason : String) : Decision :=
  { task_id := t.task_id, task_type := t.task_type, required_skill := t.required_skill,
    zone := t.zone, assigned_agent := agent, decision_reason := reason }

/-- The effect of `chosen.is_available = False` (line 99) on the roster:
`chosen` is `candidates[0]`, i.e. the first roster element satisfying the
eligibility predicate, and its availability flag is set to false in place. -/
def markFirstEligible (agents : List Agent) (required_skill zone : String) : List Agent :=
  match agents with
  | [] => []
  | a :: rest =>
    if eligibleP required_skill zone a then { a with is_available := false } :: rest
    else a :: markFirstEligible rest required_skill zone

/-- The confirmed-task loop of `main` (lines 80-109): for each confirmed task
in order, filter, pick top-of-queue, emit a decision, and on a match flip the
chosen agent's availability.  Returns the final roster and the decisions. -/
def confirmedPass (agents : List Agent) (ts : List Task) : List Agent × List Decision :=
  match ts with
  | [] => (agents, [])
  | t :: rest =>
    match pick_by_queue (eligible_agents agents t.required_skill t.zone) with
    | none =>
      let r := confirmedPass agents rest
      (r.1, mkDecision t "" noMatchReason :: r.2)
    | some chosen =>
      let r := confirmedPass (markFirstEligible agents t.required_skill t.zone) rest
      (r.1, mkDecision t chosen.agent_id confirmedReason :: r.2)

/-- The planned-task loop of `main` (lines 112-142): for each planned task in
order, filter, round-robin pick with the current cursor, increment the cursor,
emit a decision.  The loop body contains no assignment to any agent field, so
the roster is passed through each step unchanged.  Returns the roster, the
final cursor and the decisions. -/
def plannedPass (agents : List Agent) (rr_index : Int) (ts : List Task) :
    List Agent × Int × List Decision :=
  match ts with
  | [] => (agents, rr_index, [])
  | t :: rest =>
    let d :=
      match round_robin_pick (eligible_agents agents t.required_skill t.zone) rr_index with
      | none => mkDecision t "" noMatchReason
      | some chosen => mkDecision t chosen.agent_id plannedReason
    let r := plannedPass agents (rr_index + 1) rest
    (r.1, r.2.1, d :: r.2.2)

/-- The core of `main` (lines 74-142): partition tasks by `is_confirmed`,
run the confirmed pass, then the planned pass with cursor starting at 0 on
the roster as mutated by the confirmed pass.  Returns the final roster, the
final cursor, and the decision list (confirmed decisions then planned). -/
def runFull (agents : List Agent) (tasks : List Task) : List Agent × Int × List Decision :=
  let p1 := confirmedPass agents (tasks.filter (fun t => t.is_confirmed))
  let p2 := plannedPass p1.1 0 (tasks.filter (fun t => !t.is_confirmed))
  (p2.1, p2.2.1, p1.2 ++ p2.2.2)

/-- The task fields copied verbatim into a decision record. -/
def taskKey (t : Task) : String × String × String × String :=
  (t.task_id, t.task_type, t.required_skill, t.zone)

/-- The decision fields copied verbatim from the task. -/
def decisionKey (d : Decision) : String × String × String × String :=
  (d.task_id, d.task_type, d.required_skill, d.zone)

/-- Two agent records equal up to the iteration order of the skill set:
Python stores `skills` as a `set`, whose iteration order is irrelevant to the
core because only membership is tested. -/
def AgentEquiv (a b : Agent) : Prop :=
  a.agent_id = b.agent_id ∧ a.zone = b.zone ∧ a.is_available = b.is_available ∧
    a.queue_rank = b.queue_rank ∧ ∀ s : String, s ∈ a.skills ↔ s ∈ b.skills

/-- Concrete agent with queue rank 2, for witnesses. -/
def agA : Agent := ⟨"A1", ["x"], "Z", true, 2⟩

/-- Concrete agent with queue rank 1, for witnesses. -/
def agB : Agent := ⟨"A2", ["x"], "Z", true, 1⟩

/-- Concrete confirmed task requiring skill `x` in zone `Z`, for witnesses. -/
def tkC : Task := ⟨"t1", "install", "x", "Z", true⟩

/-- Concrete planned task requiring skill `x` in zone `Z`, for witnesses. -/
def tkP : Task := ⟨"t2", "repair", "x", "Z", false⟩

/-- Agent whose id is the empty string: its assignment is indistinguishable,
in the output row, from the empty-string no-match sentinel. -/
def cexAgent : Agent := ⟨"", ["x"], "Z", true, 1⟩

theorem eligibleP_iff (sk z : String) (a : Agent) :
    eligibleP sk z a = true ↔ a.is_available = true ∧ sk ∈ a.skills ∧ a.zone = z := by
  simp [eligibleP, List.contains, List.elem_iff, and_assoc]

theorem eligibleP_available {sk z : String} {a : Agent} (h : eligibleP sk z a = true) :
    a.is_available = true :=
  ((eligibleP_iff sk z a).1 h).1

theorem mem_eligible_agents_available {agents : List Agent} {sk z : String} {a : Agent}
    (h : a ∈ eligible_agents agents sk z) : a.is_available = true :=
  eligibleP_available (List.mem_filter.1 h).2

/-- C3: the eligibility filter returns exactly the agents that are available,
have the required skill, and are in the given zone, in input order (an
order-preserving sublist of the roster), and returns the empty list, not an
error, when no agent qualifies. -/
theorem eligible_agents_spec (agents : List Agent) (sk z : String) :
    eligible_agents agents sk z =
      agents.filter (fun a => decide (a.is_available = true ∧ sk ∈ a.skills ∧ a.zone = z)) ∧
    (eligible_agents agents sk z).Sublist agents ∧
    (∀ a ∈ eligible_agents agents sk z,
        a ∈ agents ∧ a.is_available = true ∧ sk ∈ a.skills ∧ a.zone = z) ∧
    (∀ a ∈ agents, a.is_available = true → sk ∈ a.skills → a.zone = z →
        a ∈ eligible_agents agents sk z) ∧
    ((∀ a ∈ agents, ¬(a.is_available = true ∧ sk ∈ a.skills ∧ a.zone = z)) →
        eligible_agents agents sk z = []) := by
  refine ⟨?_, ?_, ?_, ?_, ?_⟩
  · refine List.filter_congr (fun a _ => ?_)
    rw [Bool.eq_iff_iff]
    simp only [decide_eq_true_eq]
    exact eligibleP_iff sk z a
  · exact List.filter_sublist agents
  · intro a ha
    have h := List.mem_filter.1 ha
    exact ⟨h.1, (eligibleP_iff sk z a).1 h.2⟩
  · intro a ha h1 h2 h3
    exact List.mem_filter.2 ⟨ha, (eligibleP_iff sk z a).2 ⟨h1, h2, h3⟩⟩
  · intro h
    refine List.filter_eq_nil_iff.2 (fun a ha => ?_)
    rw [eligibleP_iff]
    exact h a ha

/-- C3 witness: on a concrete roster the filter's completeness direction
applies, with all its hypotheses discharged by evaluation. -/
theorem eligible_agents_spec_witness : agA ∈ eligible_agents [agA, agB] "x" "Z" :=
  (eligible_agents_spec [agA, agB] "x" "Z").2.2.2.1 agA (by decide) (by decide) (by decide)
    (by decide)

/-! ### C1: one decision per task, class-then-input order -/

theorem confirmedPass_map_key (agents : List Agent) (ts : List Task) :
    ((confirmedPass agents ts).2).map decisionKey = ts.map taskKey := by
  induction ts generalizing agents with
  | nil => rfl
  | cons t rest ih =>
    cases h : pick_by_queue (eligible_agents agents t.required_skill t.zone) with
    | none => simp [confirmedPass, h, ih, mkDecision, decisionKey, taskKey]
    | some chosen => simp [confirmedPass, h, ih, mkDecision, decisionKey, taskKey]

theorem plannedPass_map_key (agents : List Agent) (c : Int) (ts : List Task) :
    ((plannedPass agents c ts).2.2).map decisionKey = ts.map taskKey := by
  induction ts generalizing c with
  | nil => rfl
  | cons t rest ih =>
    cases h : round_robin_pick (eligible_agents agents t.required_skill t.zone) c with
    | none => simp [plannedPass, h, ih, mkDecision, decisionKey, taskKey]
    | some chosen => simp [plannedPass, h, ih, mkDecision, decisionKey, taskKey]

theorem filter_partition_length (tasks : List Task) :
    (tasks.filter (fun t => t.is_confirmed)).length +
      (tasks.filter (fun t => !t.is_confirmed)).length = tasks.length := by
  induction tasks with
  | nil => rfl
  | cons t rest ih =>
    cases hc : t.is_confirmed <;> simp [List.filter_cons, hc] <;> omega

/-- C1: the run emits exactly one decision record per task, each carrying its
task's identifying fields, with all confirmed-task records first and, inside
each class, in input order. -/
theorem run_emits_one_decision_per_task_in_class_order (agents : List Agent)
    (tasks : List Task) :
    ((runFull agents tasks).2.2).map decisionKey =
      (tasks.filter (fun t => t.is_confirmed)).map taskKey ++
        (tasks.filter (fun t => !t.is_confirmed)).map taskKey ∧
    ((runFull agents tasks).2.2).length = tasks.length := by
  have h1 := confirmedPass_map_key agents (tasks.filter (fun t => t.is_confirmed))
  have h2 := plannedPass_map_key
    ((confirmedPass agents (tasks.filter (fun t => t.is_confirmed))).1) 0
    (tasks.filter (fun t => !t.is_confirmed))
  constructor
  · simp only [runFull, List.map_append]
    rw [h1, h2]
  · have l1 := congrArg List.length h1
    have l2 := congrArg List.length h2
    simp only [List.length_map] at l1 l2
    have hp := filter_partition_length tasks
    simp only [runFull, List.length_append]
    omega

/-! ### C4: the round-robin selector -/

theorem emod_toNat_lt (c : Int) (n : Nat) (hn : 0 < n) : (c % (n : Int)).toNat < n := by
  have h0 : ((n : Int)) ≠ 0 := by
    simpa using Nat.pos_iff_ne_zero.mp hn
  have h1 : 0 ≤ c % (n : Int) := Int.emod_nonneg c h0
  have h2 : c % (n : Int) < (n : Int) := Int.emod_lt_of_pos c (by exact_mod_cast hn)
  omega

/-- C4: the round-robin selector returns the candidate at index
`cursor mod length`, is `none` exactly on the empty candidate list, and is a
pure function of its two inputs (it is a plain function of them; the cursor
is advanced by the orchestrator, not here). -/
theorem round_robin_pick_spec (candidates : List Agent) (cursor : Int) :
    round_robin_pick candidates cursor =
      candidates.get? ((cursor % (candidates.length : Int)).toNat) ∧
    (round_robin_pick candidates cursor = none ↔ candidates = []) := by
  cases candidates with
  | nil => simp [round_robin_pick]
  | cons a rest =>
    have hlt := emod_toNat_lt cursor ((a :: rest).length) (Nat.succ_pos _)
    have heq : round_robin_pick (a :: rest) cursor =
        (a :: rest).get? ((cursor % ((a :: rest).length : Int)).toNat) := by
      simp [round_robin_pick]
    refine ⟨heq, ?_, ?_⟩
    · intro h
      rw [heq, List.get?_eq_none] at h
      exfalso
      omega
    · intro h
      cases h

/-- C4 witness: two candidates, cursor 5, picks index `5 mod 2 = 1`. -/
theorem round_robin_pick_spec_witness : round_robin_pick [agA, agB] 5 = some agB := by
  rw [(round_robin_pick_spec [agA, agB] 5).1]
  decide

/-! ### C6: cursor accounting -/

theorem plannedPass_cursor_acc (agents : List Agent) (c : Int) (ts : List Task) :
    (plannedPass agents c ts).2.1 = c + ts.length := by
  induction ts generalizing c with
  | nil => simp [plannedPass]
  | cons t rest ih =>
    simp [plannedPass, ih]
    ring

/-- C6: the round-robin cursor starts at zero, advances by exactly one per
planned task whether or not the task matched, and ends at the number of
planned tasks in the input. -/
theorem cursor_advances_once_per_planned_task (agents : List Agent) (tasks : List Task) :
    (∀ (c : Int) (ts : List Task), (plannedPass agents c ts).2.1 = c + ts.length) ∧
    (runFull agents tasks).2.1 = ((tasks.filter (fun t => !t.is_confirmed)).length : Int) := by
  refine ⟨fun c ts => plannedPass_cursor_acc agents c ts, ?_⟩
  simp [runFull, plannedPass_cursor_acc]

/-! ### C7: the planned pass never mutates the roster -/

theorem plannedPass_roster (agents : List Agent) (c : Int) (ts : List Task) :
    (plannedPass agents c ts).1 = agents := by
  induction ts generalizing c with
  | nil => rfl
  | cons t rest ih => simp [plannedPass, ih]

/-- C7: processing planned tasks changes no agent field: after the planned
pass the roster is exactly the roster produced by the confirmed pass,
regardless of how many planned tasks matched. -/
theorem planned_pass_preserves_roster (agents : List Agent) (tasks : List Task) :
    (∀ (c : Int) (ts : List Task), (plannedPass agents c ts).1 = agents) ∧
    (runFull agents tasks).1 =
      (confirmedPass agents (tasks.filter (fun t => t.is_confirmed))).1 := by
  refine ⟨fun c ts => plannedPass_roster agents c ts, ?_⟩
  simp [runFull, plannedPass_roster]

/-! ### C2: a confirmed assignment consumes the agent's capacity -/

theorem get?_append_cons {α : Type} (l r : List α) (a : α) :
    (l ++ a :: r).get? l.length = some a := by
  induction l with
  | nil => rfl
  | cons b l ih => simpa using ih

theorem filter_head_decomp (agents : List Agent) (sk z : String) (c : Agent)
    (h : pick_by_queue (eligible_agents agents sk z) = some c) :
    ∃ pre post, agents = pre ++ c :: post ∧ (∀ a ∈ pre, eligibleP sk z a = false) ∧
      eligibleP sk z c = true ∧
      markFirstEligible agents sk z = pre ++ ({ c with is_available := false } :: post) := by
  induction agents with
  | nil => simp [pick_by_queue, eligible_agents] at h
  | cons a rest ih =>
    cases hE : eligibleP sk z a with
    | true =>
      have hc : a = c := by
        simpa [pick_by_queue, eligible_agents, List.filter_cons, hE] using h
      subst hc
      refine ⟨[], rest, by simp, by simp, hE, ?_⟩
      simp [markFirstEligible, hE]
    | false =>
      have h2 : pick_by_queue (eligible_agents rest sk z) = some c := by
        simpa [pick_by_queue, eligible_agents, List.filter_cons, hE] using h
      obtain ⟨pre, post, h3, h4, h5, h6⟩ := ih h2
      refine ⟨a :: pre, post, by simp [h3], ?_, h5, ?_⟩
      · intro x hx
        rcases List.mem_cons.1 hx with rfl | hx
        · exact hE
        · exact h4 x hx
      · simp [markFirstEligible, hE, h6]

theorem mark_preserves_unavailable (sk z : String) :
    ∀ (agents : List Agent) (i : Nat) (a : Agent),
      agents.get? i = some a → a.is_available = false →
      (markFirstEligible agents sk z).get? i = some a := by
  intro agents
  induction agents with
  | nil =>
    intro i a h _
    simp at h
  | cons b rest ih =>
    intro i a h hfalse
    cases hE : eligibleP sk z b with
    | true =>
      cases i with
      | zero =>
        exfalso
        have hav := eligibleP_available hE
        have hb : b = a := by simpa using h
        rw [hb, hfalse] at hav
        cases hav
      | succ n =>
        simp only [markFirstEligible, hE, if_true]
        simpa using h
    | false =>
      cases i with
      | zero =>
        simp only [markFirstEligible, hE]
        simpa using h
      | succ n =>
        simp only [markFirstEligible, hE]
        simpa using ih n a (by simpa using h) hfalse

theorem confirmedPass_preserves_unavailable (ts : List Task) :
    ∀ (agents : List Agent) (i : Nat) (a : Agent),
      agents.get? i = some a → a.is_available = false →
      ((confirmedPass agents ts).1).get? i = some a := by
  induction ts with
  | nil =>
    intro agents i a h _
    simpa [confirmedPass] using h
  | cons t rest ih =>
    intro agents i a h hfalse
    cases hp : pick_by_queue (eligible_agents agents t.required_skill t.zone) with
    | none =>
      simp only [confirmedPass, hp]
      exact ih agents i a h hfalse
    | some chosen =>
      simp only [confirmedPass, hp]
      exact ih _ i a (mark_preserves_unavailable _ _ agents i a h hfalse) hfalse

/-- C2: when the priority pick selects `chosen` for a confirmed task, the
roster slot holding `chosen` has its availability flag set to false, it keeps
that record (flag still false) after any further confirmed processing, and no
candidate set computed on any such later roster state ever contains it. -/
theorem confirmed_assignment_consumes_capacity (agents : List Agent) (sk z : String)
    (chosen : Agent)
    (hpick : pick_by_queue (eligible_agents agents sk z) = some chosen) :
    ∃ i : Nat,
      (markFirstEligible agents sk z).get? i = some { chosen with is_available := false } ∧
      ∀ ts : List Task,
        ((confirmedPass (markFirstEligible agents sk z) ts).1).get? i =
          some { chosen with is_available := false } ∧
        ∀ sk2 z2 : String,
          { chosen with is_available := false } ∉
            eligible_agents ((confirmedPass (markFirstEligible agents sk z) ts).1) sk2 z2 := by
  obtain ⟨pre, post, hag, hpre, hc, hmark⟩ := filter_head_decomp agents sk z chosen hpick
  have hbase : (markFirstEligible agents sk z).get? pre.length =
      some { chosen with is_available := false } := by
    rw [hmark]
    exact get?_append_cons pre post _
  refine ⟨pre.length, hbase, fun ts => ⟨?_, ?_⟩⟩
  · exact confirmedPass_preserves_unavailable ts _ pre.length _ hbase rfl
  · intro sk2 z2 hmem
    have hav := mem_eligible_agents_available hmem
    simp at hav

/-- C2 witness: a one-agent roster, the pick hypothesis discharged by
evaluation. -/
theorem confirmed_assignment_consumes_capacity_witness :
    ∃ i : Nat,
      (markFirstEligible [agA] "x" "Z").get? i = some { agA with is_available := false } ∧
      ∀ ts : List Task,
        ((confirmedPass (markFirstEligible [agA] "x" "Z") ts).1).get? i =
          some { agA with is_available := false } ∧
        ∀ sk2 z2 : String,
          { agA with is_available := false } ∉
            eligible_agents ((confirmedPass (markFirstEligible [agA] "x" "Z") ts).1) sk2 z2 :=
  confirmed_assignment_consumes_capacity [agA] "x" "Z" agA (by decide)

/-! ### C5: the priority selector picks a minimal queue rank -/

/-- C5: on a roster sorted ascending by queue rank, the priority selector
returns `none` exactly on an empty candidate set, and otherwise an eligible
agent whose queue rank is minimal among the candidates, namely the first
eligible agent in roster order (the tie-break). -/
theorem pick_by_queue_min_rank (agents : List Agent) (sk z : String)
    (hsorted : List.Sorted (fun a b : Agent => a.queue_rank ≤ b.queue_rank) agents) :
    (eligible_agents agents sk z = [] → pick_by_queue (eligible_agents agents sk z) = none) ∧
    ∀ c, pick_by_queue (eligible_agents agents sk z) = some c →
      c ∈ eligible_agents agents sk z ∧
      (∀ a ∈ eligible_agents agents sk z, c.queue_rank ≤ a.queue_rank) ∧
      ∃ pre post, agents = pre ++ c :: post ∧ ∀ a ∈ pre, eligibleP sk z a = false := by
  constructor
  · intro h
    simp [pick_by_queue, h]
  · intro c hc
    have hsc : List.Sorted (fun a b : Agent => a.queue_rank ≤ b.queue_rank)
        (eligible_agents agents sk z) :=
      List.Pairwise.sublist (List.filter_sublist agents) hsorted
    cases hcand : eligible_agents agents sk z with
    | nil =>
      rw [hcand] at hc
      simp [pick_by_queue] at hc
    | cons b rest =>
      have hbc : b = c := by
        rw [hcand] at hc
        simpa [pick_by_queue] using hc
      subst hbc
      rw [hcand] at hsc
      refine ⟨List.mem_cons_self _ _, ?_, ?_⟩
      · intro a ha
        rcases List.mem_cons.1 ha with rfl | ha
        · exact le_refl _
        · exact List.rel_of_sorted_cons hsc a ha
      · obtain ⟨pre, post, h1, h2, _, _⟩ := filter_head_decomp agents sk z b hc
        exact ⟨pre, post, h1, h2⟩

/-- C5 witness: roster sorted by rank (1 then 2); the selector's output `agB`
is a minimal-rank candidate. -/
theorem pick_by_queue_min_rank_witness :
    agB ∈ eligible_agents [agB, agA] "x" "Z" ∧
    ∀ a ∈ eligible_agents [agB, agA] "x" "Z", agB.queue_rank ≤ a.queue_rank := by
  have h := (pick_by_queue_min_rank [agB, agA] "x" "Z" (by decide)).2 agB (by decide)
  exact ⟨h.1, h.2.1⟩

/-! ### C8: load-time handling of malformed rows -/

theorem agentEquiv_eligibleP {sk z : String} {a b : Agent} (h : AgentEquiv a b) :
    eligibleP sk z a = eligibleP sk z b := by
  obtain ⟨h1, h2, h3, h4, h5⟩ := h
  simp [eligibleP, h2, h3, h5 sk]

theorem forall2_eligible_agents {sk z : String} {l1 l2 : List Agent}
    (h : List.Forall₂ AgentEquiv l1 l2) :
    List.Forall₂ AgentEquiv (eligible_agents l1 sk z) (eligible_agents l2 sk z) := by
  induction h with
  | nil => exact List.Forall₂.nil
  | @cons a b t1 t2 hab htail ih =>
    have he := @agentEquiv_eligibleP sk z a b hab
    simp only [eligible_agents, List.filter_cons] at ih ⊢
    rw [he]
    cases hE : eligibleP sk z b with
    | true =>
      simp only [if_true]
      exact List.Forall₂.cons hab ih
    | false =>
      simpa using ih

theorem forall2_get? {R : Agent → Agent → Prop} {l1 l2 : List Agent}
    (h : List.Forall₂ R l1 l2) (i : Nat) :
    (l1.get? i = none ∧ l2.get? i = none) ∨
      ∃ a b, l1.get? i = some a ∧ l2.get? i = some b ∧ R a b := by
  induction h generalizing i with
  | nil => left; simp
  | @cons a b t1 t2 hab htail ih =>
    cases i with
    | zero => right; exact ⟨a, b, rfl, rfl, hab⟩
    | succ n => simpa using ih n

theorem forall2_markFirstEligible {sk z : String} {l1 l2 : List Agent}
    (h : List.Forall₂ AgentEquiv l1 l2) :
    List.Forall₂ AgentEquiv (markFirstEligible l1 sk z) (markFirstEligible l2 sk z) := by
  induction h with
  | nil => exact List.Forall₂.nil
  | @cons a b t1 t2 hab htail ih =>
    have he := @agentEquiv_eligibleP sk z a b hab
    simp only [markFirstEligible]
    rw [he]
    cases hE : eligibleP sk z b with
    | true =>
      simp only [if_true]
      obtain ⟨h1, h2, h3, h4, h5⟩ := hab
      exact List.Forall₂.cons ⟨h1, h2, rfl, h4, h5⟩ htail
    | false =>
      simpa using List.Forall₂.cons hab ih

theorem confirmedPass_congr (ts : List Task) {l1 l2 : List Agent}
    (h : List.Forall₂ AgentEquiv l1 l2) :
    List.Forall₂ AgentEquiv ((confirmedPass l1 ts).1) ((confirmedPass l2 ts).1) ∧
      (confirmedPass l1 ts).2 = (confirmedPass l2 ts).2 := by
  induction ts generalizing l1 l2 with
  | nil => exact ⟨h, rfl⟩
  | cons t rest ih =>
    have hcand := @forall2_eligible_agents t.required_skill t.zone l1 l2 h
    have hget := forall2_get? hcand 0
    have hh1 : ∀ l : List Agent, pick_by_queue l = l.get? 0 := by
      intro l
      cases l <;> rfl
    rcases hget with ⟨hn1, hn2⟩ | ⟨a, b, ha, hb, hab⟩
    · have hp1 : pick_by_queue (eligible_agents l1 t.required_skill t.zone) = none := by
        rw [hh1]; exact hn1
      have hp2 : pick_by_queue (eligible_agents l2 t.required_skill t.zone) = none := by
        rw [hh1]; exact hn2
      obtain ⟨hst, hdec⟩ := ih h
      exact ⟨by simp only [confirmedPass, hp1, hp2]; exact hst,
        by simp only [confirmedPass, hp1, hp2]; rw [hdec]⟩
    · have hp1 : pick_by_queue (eligible_agents l1 t.required_skill t.zone) = some a := by
        rw [hh1]; exact ha
      have hp2 : pick_by_queue (eligible_agents l2 t.required_skill t.zone) = some b := by
        rw [hh1]; exact hb
      obtain ⟨hst, hdec⟩ := ih (forall2_markFirstEligible h)
      refine ⟨by simp only [confirmedPass, hp1, hp2]; exact hst, ?_⟩
      simp only [confirmedPass, hp1, hp2]
      rw [hdec, hab.1]

theorem plannedPass_congr (ts : List Task) {l1 l2 : List Agent} (c : Int)
    (h : List.Forall₂ AgentEquiv l1 l2) :
    (plannedPass l1 c ts).2.2 = (plannedPass l2 c ts).2.2 := by
  induction ts generalizing c with
  | nil => rfl
  | cons t rest ih =>
    have hcand := @forall2_eligible_agents t.required_skill t.zone l1 l2 h
    have hd :
        round_robin_pick (eligible_agents l1 t.required_skill t.zone) c = none ∧
          round_robin_pick (eligible_agents l2 t.required_skill t.zone) c = none ∨
        ∃ x y, round_robin_pick (eligible_agents l1 t.required_skill t.zone) c = some x ∧
          round_robin_pick (eligible_agents l2 t.required_skill t.zone) c = some y ∧
          x.agent_id = y.agent_id := by
      generalize hq1 : eligible_agents l1 t.required_skill t.zone = c1 at hcand ⊢
      generalize hq2 : eligible_agents l2 t.required_skill t.zone = c2 at hcand ⊢
      cases hcand with
      | nil => left; exact ⟨rfl, rfl⟩
      | @cons a b t1 t2 hab htail =>
        have hlen : t1.length = t2.length := List.Forall₂.length_eq htail
        have hidx : ((c % (((a :: t1).length : Nat) : Int)).toNat) < (a :: t1).length :=
          emod_toNat_lt c _ (Nat.succ_pos _)
        have hget := forall2_get? (List.Forall₂.cons hab htail)
          ((c % (((a :: t1).length : Nat) : Int)).toNat)
        rcases hget with ⟨hn1, _⟩ | ⟨x, y, hx, hy, hxy⟩
        · rw [List.get?_eq_none] at hn1
          omega
        · right
          refine ⟨x, y, ?_, ?_, hxy.1⟩
          · simp only [round_robin_pick, List.isEmpty_cons, if_false]
            exact hx
          · simp only [round_robin_pick, List.isEmpty_cons, if_false]
            rw [show (b :: t2).length = (a :: t1).length by simp [hlen]]
            exact hy
    rcases hd with ⟨hp1, hp2⟩ | ⟨x, y, hp1, hp2, hxy⟩
    · simp only [plannedPass, hp1, hp2]
      rw [ih (c + 1)]
    · simp only [plannedPass, hp1, hp2]
      rw [ih (c + 1), hxy]

/-- C9: the core is a pure function of the roster and task list, and its
decision output is moreover invariant under reordering each agent's skill
set — the only place Python set iteration order could enter; there is no
randomness or clock input anywhere in the embedded core. -/
theorem run_deterministic_skill_order_independent (agents1 agents2 : List Agent)
    (tasks : List Task) (h : List.Forall₂ AgentEquiv agents1 agents2) :
    (runFull agents1 tasks).2.2 = (runFull agents2 tasks).2.2 := by
  obtain ⟨hst, hdec⟩ := confirmedPass_congr (tasks.filter (fun t => t.is_confirmed)) h
  simp only [runFull]
  rw [hdec, plannedPass_congr (tasks.filter (fun t => !t.is_confirmed)) 0 hst]

/-- C9 witness: the same roster with the skill set listed in two different
orders yields the identical decision list. -/
theorem run_deterministic_skill_order_independent_witness :
    (runFull [⟨"A1", ["x", "y"], "Z", true, 1⟩] [tkC]).2.2 =
      (runFull [⟨"A1", ["y", "x"], "Z", true, 1⟩] [tkC]).2.2 :=
  run_deterministic_skill_order_independent _ _ _
    (List.Forall₂.cons ⟨rfl, rfl, rfl, rfl, by intro s; simp; tauto⟩ List.Forall₂.nil)

/-! ### C10: what the reason string reveals about a decision -/

theorem pick_mem {candidates : List Agent} {c : Agent}
    (h : pick_by_queue candidates = some c) : c ∈ candidates := by
  cases candidates with
  | nil => simp [pick_by_queue] at h
  | cons a rest =>
    have ha : a = c := by simpa [pick_by_queue] using h
    rw [← ha]
    exact List.mem_cons_self _ _

theorem round_robin_pick_mem {candidates : List Agent} {c : Int} {x : Agent}
    (h : round_robin_pick candidates c = some x) : x ∈ candidates := by
  cases candidates with
  | nil => simp [round_robin_pick] at h
  | cons a rest =>
    simp only [round_robin_pick, List.isEmpty_cons, if_false] at h
    exact List.get?_mem h

theorem markFirstEligible_ids {agents : List Agent} {sk z : String}
    (hid : ∀ a ∈ agents, a.agent_id ≠ "") :
    ∀ a ∈ markFirstEligible agents sk z, a.agent_id ≠ "" := by
  induction agents with
  | nil =>
    intro a ha
    simp [markFirstEligible] at ha
  | cons b rest ih =>
    intro a ha
    have hidr : ∀ x ∈ rest, x.agent_id ≠ "" := fun x hx => hid x (List.mem_cons_of_mem _ hx)
    cases hE : eligibleP sk z b with
    | true =>
      simp only [markFirstEligible, hE, if_true] at ha
      rcases List.mem_cons.1 ha with rfl | ha
      · exact hid b (List.mem_cons_self _ _)
      · exact hidr a ha
    | false =>
      simp only [markFirstEligible, hE] at ha
      rcases List.mem_cons.1 ha with rfl | ha
      · exact hid a (List.mem_cons_self _ _)
      · exact ih hidr a ha

theorem confirmedPass_ids (ts : List Task) :
    ∀ (agents : List Agent), (∀ a ∈ agents, a.agent_id ≠ "") →
      ∀ a ∈ (confirmedPass agents ts).1, a.agent_id ≠ "" := by
  induction ts with
  | nil =>
    intro agents hid a ha
    exact hid a (by simpa [confirmedPass] using ha)
  | cons t rest ih =>
    intro agents hid a ha
    cases hp : pick_by_queue (eligible_agents agents t.required_skill t.zone) with
    | none =>
      exact ih agents hid a (by simpa [confirmedPass, hp] using ha)
    | some chosen =>
      exact ih _ (markFirstEligible_ids hid) a (by simpa [confirmedPass, hp] using ha)

theorem confirmedPass_decision_shape (ts : List Task) :
    ∀ (agents : List Agent), (∀ a ∈ agents, a.agent_id ≠ "") →
      ∀ d ∈ (confirmedPass agents ts).2,
        (d.assigned_agent = "" ∧ d.decision_reason = noMatchReason) ∨
          (d.assigned_agent ≠ "" ∧ d.decision_reason = confirmedReason) := by
  induction ts with
  | nil =>
    intro agents _ d hd
    simp [confirmedPass] at hd
  | cons t rest ih =>
    intro agents hid d hd
    cases hp : pick_by_queue (eligible_agents agents t.required_skill t.zone) with
    | none =>
      simp only [confirmedPass, hp] at hd
      rcases List.mem_cons.1 hd with rfl | hd
      · exact Or.inl ⟨rfl, rfl⟩
      · exact ih agents hid d hd
    | some chosen =>
      simp only [confirmedPass, hp] at hd
      rcases List.mem_cons.1 hd with rfl | hd
      · exact Or.inr ⟨hid chosen (List.mem_of_mem_filter (pick_mem hp)), rfl⟩
      · exact ih _ (markFirstEligible_ids hid) d hd

theorem plannedPass_decision_shape (ts : List Task) :
    ∀ (agents : List Agent) (c : Int), (∀ a ∈ agents, a.agent_id ≠ "") →
      ∀ d ∈ (plannedPass agents c ts).2.2,
        (d.assigned_agent = "" ∧ d.decision_reason = noMatchReason) ∨
          (d.assigned_agent ≠ "" ∧ d.decision_reason = plannedReason) := by
  induction ts with
  | nil =>
    intro agents c _ d hd
    simp [plannedPass] at hd
  | cons t rest ih =>
    intro agents c hid d hd
    cases hp : round_robin_pick (eligible_agents agents t.required_skill t.zone) c with
    | none =>
      simp only [plannedPass, hp] at hd
      rcases List.mem_cons.1 hd with rfl | hd
      · exact Or.inl ⟨rfl, rfl⟩
      · exact ih agents (c + 1) hid d hd
    | some chosen =>
      simp only [plannedPass, hp] at hd
      rcases List.mem_cons.1 hd with rfl | hd
      · exact Or.inr ⟨hid chosen (List.mem_of_mem_filter (round_robin_pick_mem hp)), rfl⟩
      · exact ih agents (c + 1) hid d hd

/-- C10 (amended): provided every roster agent id is a nonempty string, a
decision's assigned agent is empty iff its reason is the no-match string;
each confirmed-pass record carries the no-match or the confirmed reason
(the latter exactly when assigned), each planned-pass record the no-match or
the planned reason, so the reason alone determines the task's class and
whether it was matched. -/
theorem decision_reason_classifies (agents : List Agent) (tasks : List Task)
    (hid : ∀ a ∈ agents, a.agent_id ≠ "") :
    (∀ d ∈ (runFull agents tasks).2.2,
        (d.assigned_agent = "" ↔ d.decision_reason = noMatchReason)) ∧
    (∀ d ∈ (confirmedPass agents (tasks.filter (fun t => t.is_confirmed))).2,
        (d.assigned_agent = "" ∧ d.decision_reason = noMatchReason) ∨
          (d.assigned_agent ≠ "" ∧ d.decision_reason = confirmedReason)) ∧
    (∀ d ∈ (plannedPass (confirmedPass agents (tasks.filter (fun t => t.is_confirmed))).1 0
          (tasks.filter (fun t => !t.is_confirmed))).2.2,
        (d.assigned_agent = "" ∧ d.decision_reason = noMatchReason) ∨
          (d.assigned_agent ≠ "" ∧ d.decision_reason = plannedReason)) := by
  have hconf := confirmedPass_decision_shape (tasks.filter (fun t => t.is_confirmed)) agents hid
  have hplan := plannedPass_decision_shape (tasks.filter (fun t => !t.is_confirmed)) _ 0
    (confirmedPass_ids (tasks.filter (fun t => t.is_confirmed)) agents hid)
  refine ⟨?_, hconf, hplan⟩
  intro d hd
  have hm := (by simpa [runFull] using hd :
    d ∈ (confirmedPass agents (tasks.filter (fun t => t.is_confirmed))).2 ∨
      d ∈ (plannedPass (confirmedPass agents (tasks.filter (fun t => t.is_confirmed))).1 0
        (tasks.filter (fun t => !t.is_confirmed))).2.2)
  rcases hm with hd1 | hd2
  · rcases hconf d hd1 with ⟨h1, h2⟩ | ⟨h1, h2⟩
    · exact ⟨fun _ => h2, fun _ => h1⟩
    · refine ⟨fun hh => absurd hh h1, fun hh => ?_⟩
      rw [h2] at hh
      exact absurd hh (by decide)
  · rcases hplan d hd2 with ⟨h1, h2⟩ | ⟨h1, h2⟩
    · exact ⟨fun _ => h2, fun _ => h1⟩
    · refine ⟨fun hh => absurd hh h1, fun hh => ?_⟩
      rw [h2] at hh
      exact absurd hh (by decide)

/-- C10 witness: a run with nonempty agent ids; the iff holds at the
confirmed decision the run actually emits. -/
theorem decision_reason_classifies_witness :
    ((mkDecision tkC agA.agent_id confirmedReason).assigned_agent = "" ↔
      (mkDecision tkC agA.agent_id confirmedReason).decision_reason = noMatchReason) :=
  (decision_reason_classifies [agA] [tkC, tkP] (by decide)).1 _ (by decide)

/-- C10 counterexample: with an agent whose id is the empty string, the run
emits a record whose assigned agent is the empty string while its reason is
the confirmed-assignment string, not the no-match string, so the claimed
equivalence fails for an emitted record. -/
theorem decision_reason_cex :
    ((runFull [cexAgent] [tkC]).2.2.map (fun d => (d.assigned_agent, d.decision_reason))) =
      [("", confirmedReason)] ∧ ¬ confirmedReason = noMatchReason :=
  ⟨rfl, by decide⟩

end Dispatch
